import Mathlib

/-!
Verification of the expert-system shell in `main.py`: the token normalizer,
the rule knowledge base, the fact base, and the forward-chaining inference
engine with its classifier.  Each program construct is shallowly embedded as
an executable Lean definition translated from the Python source; the theorems
at the end of the file settle the specification claims against these
definitions.
-/

/-! Normalizer (the function normalize, main.py lines 12-13).

`normalize(s) = s.strip().lower().replace(" ", "_")`.  Strings are handled
through their character lists.  `pySpace` is the default whitespace set of
Python's `str.strip`; `pyLowerChar` is the per-character lower-casing of
`str.lower` restricted to the ASCII range (the only range exercised by this
program); `str.replace(" ", "_")` with a single-character pattern is the
per-character map `underscoreChar`. -/

namespace MainPy

/-- Whitespace characters stripped by Python's `str.strip()` (ASCII range). -/
def pySpace (c : Char) : Bool :=
  c == ' ' || c == '\t' || c == '\n' || c == '\r' || c == '\x0b' || c == '\x0c'

/-- Python `str.strip()` on a character list: drop whitespace from both ends. -/
def pyStripList (l : List Char) : List Char :=
  ((l.dropWhile pySpace).reverse.dropWhile pySpace).reverse

/-- Per-character `str.lower()` (ASCII fragment): map `A`-`Z` to `a`-`z`. -/
def pyLowerChar (c : Char) : Char :=
  if 65 ≤ c.toNat ∧ c.toNat ≤ 90 then Char.ofNat (c.toNat + 32) else c

/-- Per-character `str.replace(" ", "_")`: each space becomes an underscore. -/
def underscoreChar (c : Char) : Char :=
  if c == ' ' then '_' else c

/-- The function `normalize` from main.py: `s.strip().lower().replace(" ", "_")`. -/
def normalize (s : String) : String :=
  String.mk (((pyStripList s.data).map pyLowerChar).map underscoreChar)

/-! Spec-side normalizer definitions for claim C6.  `collapseWsRuns` replaces
every maximal run of whitespace by a single `_`, which is what the claim
asserts about internal whitespace; `normalizeClaimC6` is the normalizer the
claim describes, and `normalizeAmendedC6` is the amended description (each
space character individually becomes an underscore, other whitespace is kept). -/

/-- Replace each maximal run of whitespace characters by one `_`.  The flag
records whether the previous character belonged to a whitespace run. -/
def collapseAux : List Char → Bool → List Char
  | [], _ => []
  | c :: cs, inRun =>
    if pySpace c then
      (if inRun then collapseAux cs true else '_' :: collapseAux cs true)
    else c :: collapseAux cs false

/-- Replace every maximal whitespace run in the list by a single `_`. -/
def collapseWsRuns (l : List Char) : List Char :=
  collapseAux l false

/-- The normalizer described by claim C6: trim both ends, lower-case, and
replace every internal run of whitespace characters by a single underscore. -/
def normalizeClaimC6 (s : String) : String :=
  String.mk (collapseWsRuns ((pyStripList s.data).map pyLowerChar))

/-- The amended description of `normalize`: trim both ends, lower-case, and
replace each remaining space character (only `' '`, one underscore per space)
by `_`. -/
def normalizeAmendedC6 (s : String) : String :=
  String.mk ((pyStripList s.data).map (fun c => if c = ' ' then '_' else pyLowerChar c))

/-! Integer parsing for the priority update field.

`update_rule` runs `int(fields["priority"])` inside `try/except ValueError`.
`pyIntParse` models Python's `int` applied to a string: surrounding
whitespace is ignored, then an optional sign must be followed by at least one
decimal digit. -/

/-- Decimal digit value of a character, if it is a digit. -/
def digitVal (c : Char) : Option Nat :=
  if 48 ≤ c.toNat ∧ c.toNat ≤ 57 then some (c.toNat - 48) else none

/-- Value of a non-empty all-digit character list. -/
def digitsVal : List Char → Option Nat
  | [] => none
  | [c] => digitVal c
  | c :: cs => match digitVal c, digitsVal cs with
    | some d, some n => some (d * 10 ^ cs.length + n)
    | _, _ => none

/-- Python `int(s)` on a string: `none` models a raised `ValueError`. -/
def pyIntParse (s : String) : Option Int :=
  match pyStripList s.data with
  | '-' :: ds => (digitsVal ds).map (fun n => -(n : Int))
  | '+' :: ds => (digitsVal ds).map (fun n => (n : Int))
  | ds => (digitsVal ds).map (fun n => (n : Int))

/-! Rule model (class Rule, main.py lines 19-26). -/

/-- A production rule as stored by the program. -/
structure Rule where
  id : String
  conditions : List String
  conclusion : String
  priority : Int
  description : String
deriving DecidableEq

/-- Constructor `Rule.__init__`: conditions and conclusion are normalized on
construction; the priority is already an integer. -/
def mkRule (rid : String) (conditions : List String) (conclusion : String)
    (priority : Int) (description : String) : Rule :=
  ⟨rid, conditions.map normalize, normalize conclusion, priority, description⟩

/-! Knowledge base (class KnowledgeBase, main.py lines 51-98).

The Python store is a dict keyed by `rule.id`; it is embedded as the list of
stored rules in insertion order, looked up by id. -/

/-- Operation `KnowledgeBase.get_rule`: lookup by id. -/
def getRule (kb : List Rule) (rid : String) : Option Rule :=
  kb.find? (fun r => r.id == rid)

/-- Operation `KnowledgeBase.add_rule`: fail on duplicate id, otherwise insert. -/
def addRule (kb : List Rule) (r : Rule) : List Rule × Bool :=
  if kb.any (fun x => x.id == r.id) then (kb, false) else (kb ++ [r], true)

/-- The optional keyword fields of `KnowledgeBase.update_rule`.  The
`priority` field carries the raw string handed to Python's `int()` (whose
failure the code catches as `ValueError`). -/
structure UpdateFields where
  conditions : Option (List String)
  conclusion : Option String
  priority : Option String
  description : Option String
deriving DecidableEq

/-- Block for `conditions` in `update_rule`: normalize the supplied list,
fail if it is empty, otherwise overwrite `r.conditions`. -/
def condStage (r : Rule) (fs : UpdateFields) : Rule × Bool :=
  match fs.conditions with
  | none => (r, true)
  | some cs =>
    let nc := cs.map normalize
    if nc.length = 0 then (r, false) else ({ r with conditions := nc }, true)

/-- Block for `conclusion` in `update_rule`: fail if the supplied conclusion
strips to the empty string, otherwise overwrite with its normalization.  A
`false` flag from an earlier block short-circuits (Python returned already). -/
def conclStage (rb : Rule × Bool) (fs : UpdateFields) : Rule × Bool :=
  if rb.2 then
    match fs.conclusion with
    | none => (rb.1, true)
    | some c =>
      if pyStripList c.data = [] then (rb.1, false)
      else ({ rb.1 with conclusion := normalize c }, true)
  else rb

/-- Block for `priority` in `update_rule`: overwrite the priority with
`int(value)`, failing (without mutation) when the parse raises. -/
def prioStage (rb : Rule × Bool) (fs : UpdateFields) : Rule × Bool :=
  if rb.2 then
    match fs.priority with
    | none => (rb.1, true)
    | some p =>
      match pyIntParse p with
      | none => (rb.1, false)
      | some n => ({ rb.1 with priority := n }, true)
  else rb

/-- Block for `description` in `update_rule`: unconditional overwrite. -/
def descStage (rb : Rule × Bool) (fs : UpdateFields) : Rule × Bool :=
  if rb.2 then
    match fs.description with
    | none => (rb.1, true)
    | some d => ({ rb.1 with description := d }, true)
  else rb

/-- Field mutation of `update_rule` on the found rule: the four blocks run in
order, each early `return False` modelled by the short-circuiting flag. -/
def updateRuleAux (r : Rule) (fs : UpdateFields) : Rule × Bool :=
  descStage (prioStage (conclStage (condStage r fs) fs) fs) fs

/-- Operation `KnowledgeBase.update_rule`: find the rule, mutate it in place by the
field blocks, and report success.  Mutation of the shared object is embedded
by writing the resulting rule back at its position. -/
def updateRule (kb : List Rule) (rid : String) (fs : UpdateFields) :
    List Rule × Bool :=
  match getRule kb rid with
  | none => (kb, false)
  | some r =>
    let res := updateRuleAux r fs
    (kb.map (fun x => if x.id == rid then res.1 else x), res.2)

/-- Lexicographic `≤` on character lists by code point, Python's string
comparison used when `sorted` compares the id components of equal-priority
keys. -/
def charListLe : List Char → List Char → Bool
  | [], _ => true
  | _ :: _, [] => false
  | a :: as, b :: bs => if a == b then charListLe as bs else decide (a.toNat < b.toNat)

/-- The conflict-resolution order of `list_rules`: priority descending, then
id ascending (Python's `sorted` key `(-r.priority, r.id)`). -/
def ruleBefore (a b : Rule) : Prop :=
  b.priority < a.priority ∨ (a.priority = b.priority ∧ charListLe a.id.data b.id.data = true)

instance : DecidableRel ruleBefore := fun _ _ =>
  inferInstanceAs (Decidable (_ ∨ _))

/-- Operation `KnowledgeBase.list_rules`: the stored rules sorted by `ruleBefore`. -/
def listRules (kb : List Rule) : List Rule :=
  List.insertionSort ruleBefore kb

/-! Fact base (class FactBase, main.py lines 122-160).

The Python store is a set of strings; it is embedded as a duplicate-free
list. -/

/-- Operation `FactBase.add_fact`: normalize, reject empty or already-present facts. -/
def addFact (fb : List String) (fact : String) : List String × Bool :=
  let f := normalize fact
  if f = "" then (fb, false)
  else if f ∈ fb then (fb, false)
  else (f :: fb, true)

/-- Operation `FactBase.remove_fact`: normalize, fail when absent. -/
def removeFact (fb : List String) (fact : String) : List String × Bool :=
  let f := normalize fact
  if f ∈ fb then (fb.erase f, true) else (fb, false)

/-- Operation `FactBase.load`: replace the store by the normalization of every loaded
entry (the Python set comprehension also deduplicates). -/
def loadFacts (data : List String) : List String :=
  (data.map normalize).dedup

/-- The canonical-token invariant of the fact store: every stored fact is a
fixed point of `normalize`. -/
def factInv (fb : List String) : Prop :=
  ∀ f ∈ fb, normalize f = f

/-! Forward chaining (class ForwardChainer, main.py lines 166-202). -/

/-- One trace entry appended per rule firing. -/
structure TraceEntry where
  step : Nat
  rule_id : String
  conditions : List String
  conclusion : String
  priority : Int
deriving DecidableEq

/-- State at the end of one `for rule in self.kb.list_rules()` pass. -/
structure PassResult where
  inferred : List String
  trace : List TraceEntry
  step : Nat
  applied : Bool
deriving DecidableEq

/-- One scan over the ordered rule list (the inner `for` loop of `run`): a
rule fires when all its conditions are in `inferred` and its conclusion is
not; firing adds the conclusion, appends a trace entry, advances the step
counter and sets the `applied` flag. -/
def firePass (rules : List Rule) (inferred : List String)
    (trace : List TraceEntry) (step : Nat) (applied : Bool) : PassResult :=
  match rules with
  | [] => ⟨inferred, trace, step, applied⟩
  | r :: rs =>
    if r.conditions.all (fun c => inferred.contains c)
        && !(inferred.contains r.conclusion) then
      firePass rs (r.conclusion :: inferred)
        (trace ++ [⟨step, r.id, r.conditions, r.conclusion, r.priority⟩])
        (step + 1) true
    else
      firePass rs inferred trace step applied

/-- Result of a full forward-chaining run. -/
structure ChainResult where
  inferred : List String
  trace : List TraceEntry
deriving DecidableEq

/-- Loop `while applied` of `run`: repeat passes while the last pass
fired some rule.  The fuel argument bounds the number of passes; `run`
supplies a fuel that is provably never exhausted (`claim_C4` shows the final
pass fires nothing), so the fueled loop coincides with the Python loop. -/
def chainLoopFuel : Nat → List Rule → List String → List TraceEntry → Nat →
    ChainResult
  | 0, _, inferred, trace, _ => ⟨inferred, trace⟩
  | n + 1, rules, inferred, trace, step =>
    let p := firePass rules inferred trace step false
    if p.applied then chainLoopFuel n rules p.inferred p.trace p.step
    else ⟨p.inferred, p.trace⟩

/-- Operation `ForwardChainer.run`: copy the fact store, then iterate passes over the
priority-ordered rule list to the fixed point. -/
def run (kb : List Rule) (facts : List String) : ChainResult :=
  let rules := listRules kb
  chainLoopFuel (rules.length + 1) rules facts [] 1

/-- Operation `ForwardChainer.classify`: fixed precedence `b3 > anorganik > organik`,
else `unknown`. -/
def classify (inferred : List String) : String :=
  if inferred.contains "b3" then "b3"
  else if inferred.contains "anorganik" then "anorganik"
  else if inferred.contains "organik" then "organik"
  else "unknown"

/-- Number of rules whose conclusion is not yet among the inferred facts: the
termination measure of the `while applied` loop. -/
def countNot (rules : List Rule) (inferred : List String) : Nat :=
  (rules.filter (fun r => !(inferred.contains r.conclusion))).length

/-! Helper lemmas about a single pass of the inference loop. -/

/-- Bridge between the Boolean membership used by the Python translation and
propositional list membership. -/
theorem contains_iff_mem (l : List String) (a : String) : l.contains a = true ↔ a ∈ l := by
  simp

/-- Unfolding equation of `firePass` on the empty rule list. -/
theorem firePass_nil (I : List String) (t : List TraceEntry) (s : Nat) (b : Bool) :
    firePass [] I t s b = ⟨I, t, s, b⟩ := rfl

/-- Unfolding equation of `firePass` on a rule-list cons. -/
theorem firePass_cons (r : Rule) (rs : List Rule) (I : List String)
    (t : List TraceEntry) (s : Nat) (b : Bool) :
    firePass (r :: rs) I t s b =
      if (r.conditions.all (fun c => I.contains c)
          && !(I.contains r.conclusion)) = true
      then firePass rs (r.conclusion :: I)
        (t ++ [⟨s, r.id, r.conditions, r.conclusion, r.priority⟩]) (s + 1) true
      else firePass rs I t s b := rfl

/-- Characterization of one pass: the pass appends a block of new trace
entries `u`; the inferred set grows by exactly the conclusions of `u`; the
applied flag records whether `u` is non-empty; the step counter advances by
the number of firings; the fired rule ids follow the scan order of the rule
list; every firing concludes a fact that was not yet inferred and comes from
a rule of the list; and no conclusion is fired twice in the pass. -/
theorem firePass_spec (rules : List Rule) :
    ∀ (I : List String) (t : List TraceEntry) (s : Nat) (b : Bool),
    ∃ u, (firePass rules I t s b).trace = t ++ u ∧
      (firePass rules I t s b).inferred = (u.map (fun e => e.conclusion)).reverse ++ I ∧
      (firePass rules I t s b).applied = (b || !u.isEmpty) ∧
      (firePass rules I t s b).step = s + u.length ∧
      (u.map (fun e => e.rule_id)).Sublist (rules.map (fun r => r.id)) ∧
      (∀ e ∈ u, e.conclusion ∉ I ∧
        ∃ r ∈ rules, r.id = e.rule_id ∧ r.conclusion = e.conclusion) ∧
      (u.map (fun e => e.conclusion)).Nodup := by
  induction rules with
  | nil =>
    intro I t s b
    exact ⟨[], by simp [firePass_nil]⟩
  | cons r rs ih =>
    intro I t s b
    by_cases hg : (r.conditions.all (fun c => I.contains c)
        && !(I.contains r.conclusion)) = true
    · have hstep : firePass (r :: rs) I t s b =
          firePass rs (r.conclusion :: I)
            (t ++ [⟨s, r.id, r.conditions, r.conclusion, r.priority⟩]) (s + 1) true := by
        rw [firePass_cons, if_pos hg]
      have hcon : r.conclusion ∉ I := by
        rcases Bool.and_eq_true_iff.mp hg with ⟨-, hnc⟩
        simpa using hnc
      obtain ⟨u, h1, h2, h3, h4, h5, h6, h7⟩ :=
        ih (r.conclusion :: I)
          (t ++ [⟨s, r.id, r.conditions, r.conclusion, r.priority⟩]) (s + 1) true
      refine ⟨⟨s, r.id, r.conditions, r.conclusion, r.priority⟩ :: u,
        ?_, ?_, ?_, ?_, ?_, ?_, ?_⟩
      · rw [hstep, h1]; simp
      · rw [hstep, h2]; simp [List.reverse_cons, List.append_assoc]
      · rw [hstep, h3]; simp
      · rw [hstep, h4]; simp [List.length_cons]; omega
      · simp only [List.map_cons]
        exact List.Sublist.cons₂ _ h5
      · intro e he
        rcases List.mem_cons.mp he with he | he
        · subst he
          exact ⟨hcon, r, List.mem_cons_self r rs, rfl, rfl⟩
        · obtain ⟨hni, rr, hrr, hid, hcl⟩ := h6 e he
          exact ⟨fun hmem => hni (List.mem_cons_of_mem _ hmem),
            rr, List.mem_cons_of_mem _ hrr, hid, hcl⟩
      · simp only [List.map_cons, List.nodup_cons]
        refine ⟨?_, h7⟩
        intro hmem
        obtain ⟨e, he, hce⟩ := List.mem_map.mp hmem
        exact (h6 e he).1 (hce ▸ List.mem_cons_self _ _)
    · have hstep : firePass (r :: rs) I t s b = firePass rs I t s b := by
        rw [firePass_cons, if_neg hg]
      obtain ⟨u, h1, h2, h3, h4, h5, h6, h7⟩ := ih I t s b
      refine ⟨u, ?_, ?_, ?_, ?_, ?_, ?_, ?_⟩
      · rw [hstep, h1]
      · rw [hstep, h2]
      · rw [hstep, h3]
      · rw [hstep, h4]
      · exact List.Sublist.cons _ h5
      · intro e he
        obtain ⟨hni, rr, hrr, hid, hcl⟩ := h6 e he
        exact ⟨hni, rr, List.mem_cons_of_mem _ hrr, hid, hcl⟩
      · exact h7

/-- Unfolding equation of `chainLoopFuel` at a successor fuel value. -/
theorem chainLoopFuel_succ (n : Nat) (rules : List Rule) (I : List String)
    (t : List TraceEntry) (s : Nat) :
    chainLoopFuel (n + 1) rules I t s =
      if (firePass rules I t s false).applied
      then chainLoopFuel n rules (firePass rules I t s false).inferred
        (firePass rules I t s false).trace (firePass rules I t s false).step
      else ⟨(firePass rules I t s false).inferred, (firePass rules I t s false).trace⟩ := rfl

/-- The inferred set and applied flag computed by a pass do not depend on the
trace accumulator or the step counter. -/
theorem firePass_state_indep (rules : List Rule) :
    ∀ (I : List String) (b : Bool) (t₁ t₂ : List TraceEntry) (s₁ s₂ : Nat),
    (firePass rules I t₁ s₁ b).inferred = (firePass rules I t₂ s₂ b).inferred ∧
    (firePass rules I t₁ s₁ b).applied = (firePass rules I t₂ s₂ b).applied := by
  induction rules with
  | nil => intro I b t₁ t₂ s₁ s₂; simp [firePass_nil]
  | cons r rs ih =>
    intro I b t₁ t₂ s₁ s₂
    by_cases hg : (r.conditions.all (fun c => I.contains c)
        && !(I.contains r.conclusion)) = true
    · rw [firePass_cons, firePass_cons, if_pos hg, if_pos hg]
      exact ih _ _ _ _ _ _
    · rw [firePass_cons, firePass_cons, if_neg hg, if_neg hg]
      exact ih _ _ _ _ _ _

/-- Characterization of the fueled loop: the run appends a block of trace
entries `u`; the final inferred set is the initial one extended by exactly
the conclusions of `u`; every entry concludes a fact that was not initially
inferred and comes from some rule of the list; and no two entries share a
conclusion. -/
theorem chainLoop_spec :
    ∀ (n : Nat) (rules : List Rule) (I : List String) (t : List TraceEntry) (s : Nat),
    ∃ u, (chainLoopFuel n rules I t s).trace = t ++ u ∧
      (chainLoopFuel n rules I t s).inferred = (u.map (fun e => e.conclusion)).reverse ++ I ∧
      (∀ e ∈ u, e.conclusion ∉ I ∧
        ∃ r ∈ rules, r.id = e.rule_id ∧ r.conclusion = e.conclusion) ∧
      (u.map (fun e => e.conclusion)).Nodup := by
  intro n
  induction n with
  | zero => intro rules I t s; exact ⟨[], by simp [chainLoopFuel]⟩
  | succ n ih =>
    intro rules I t s
    obtain ⟨u₁, h1, h2, h3, h4, h5, h6, h7⟩ := firePass_spec rules I t s false
    rw [chainLoopFuel_succ]
    by_cases ha : (firePass rules I t s false).applied = true
    · rw [if_pos ha]
      obtain ⟨u₂, g1, g2, g3, g4⟩ :=
        ih rules (firePass rules I t s false).inferred
          (firePass rules I t s false).trace (firePass rules I t s false).step
      refine ⟨u₁ ++ u₂, ?_, ?_, ?_, ?_⟩
      · rw [g1, h1, List.append_assoc]
      · rw [g2, h2]
        simp [List.map_append, List.reverse_append, List.append_assoc]
      · intro e he
        rcases List.mem_append.mp he with he | he
        · obtain ⟨hni, rr, hrr, hid, hcl⟩ := h6 e he
          exact ⟨hni, rr, hrr, hid, hcl⟩
        · obtain ⟨hni, rr, hrr, hid, hcl⟩ := g3 e he
          refine ⟨fun hmem => hni ?_, rr, hrr, hid, hcl⟩
          rw [h2]
          exact List.mem_append_right _ hmem
      · rw [List.map_append]
        rw [List.nodup_append]
        refine ⟨h7, g4, ?_⟩
        intro x hx₁ hx₂
        obtain ⟨e, he, hce⟩ := List.mem_map.mp hx₂
        apply (g3 e he).1
        rw [h2, hce]
        exact List.mem_append_left _ (List.mem_reverse.mpr hx₁)
    · rw [if_neg ha]
      have hemp : u₁.isEmpty = true := by
        rw [h3] at ha
        simpa using ha
      have hu₁ : u₁ = [] := by
        cases u₁ with
        | nil => rfl
        | cons a l => simp [List.isEmpty] at hemp
      subst hu₁
      refine ⟨[], ?_, ?_, ?_, ?_⟩
      · simpa using h1
      · simpa using h2
      · intro e he; cases he
      · simp

/-- Filtering with a pointwise-stronger predicate keeps at most as many
elements. -/
theorem filter_length_mono (p q : Rule → Bool) :
    ∀ (l : List Rule), (∀ x, q x = true → p x = true) →
    (l.filter q).length ≤ (l.filter p).length := by
  intro l hpq
  induction l with
  | nil => simp
  | cons r rs ih =>
    by_cases hq : q r = true
    · simp only [List.filter_cons, hq, hpq r hq, List.length_cons, if_true]
      omega
    · have hq' : q r = false := by simpa using hq
      by_cases hp : p r = true
      · simp only [List.filter_cons, hq', hp, List.length_cons, Bool.false_eq_true,
          if_false, if_true]
        omega
      · have hp' : p r = false := by simpa using hp
        simp only [List.filter_cons, hq', hp', Bool.false_eq_true, if_false]
        exact ih

/-- Growing the inferred set while newly covering the conclusion of some rule
of the list strictly decreases the termination measure `countNot`. -/
theorem countNot_strict (I J : List String)
    (hsub : ∀ x ∈ I, x ∈ J) (r0 : Rule)
    (hni : r0.conclusion ∉ I) (hinJ : r0.conclusion ∈ J) :
    ∀ rules : List Rule, r0 ∈ rules → countNot rules J < countNot rules I := by
  have hpq : ∀ x : Rule, (!(J.contains x.conclusion)) = true →
      (!(I.contains x.conclusion)) = true := by
    intro x hx
    have hnJ : x.conclusion ∉ J := by simpa using hx
    have hnI : x.conclusion ∉ I := fun hmem => hnJ (hsub _ hmem)
    simpa using hnI
  have hIr0 : (!(I.contains r0.conclusion)) = true := by simpa using hni
  have hJr0 : (!(J.contains r0.conclusion)) = false := by simpa using hinJ
  intro rules hr0
  induction rules with
  | nil => cases hr0
  | cons r rs ih =>
    rcases List.mem_cons.mp hr0 with hr | hr
    · subst hr
      have hmono := filter_length_mono (fun x => !(I.contains x.conclusion))
        (fun x => !(J.contains x.conclusion)) rs hpq
      simp only [countNot, List.filter_cons, hIr0, hJr0, Bool.false_eq_true,
        if_false, if_true, List.length_cons]
      omega
    · have hlt := ih hr
      by_cases hj : (!(J.contains r.conclusion)) = true
      · simp only [countNot, List.filter_cons, hj, hpq r hj, List.length_cons,
          if_true] at hlt ⊢
        omega
      · have hj' : (!(J.contains r.conclusion)) = false := by simpa using hj
        by_cases hi : (!(I.contains r.conclusion)) = true
        · simp only [countNot, List.filter_cons, hj', hi, Bool.false_eq_true,
            if_false, if_true, List.length_cons] at hlt ⊢
          omega
        · have hi' : (!(I.contains r.conclusion)) = false := by simpa using hi
          simp only [countNot, List.filter_cons, hj', hi', Bool.false_eq_true,
            if_false] at hlt ⊢
          omega

/-- With fuel exceeding the termination measure, the loop stops at a fixed
point: a further pass over the rules fires nothing. -/
theorem chain_fix :
    ∀ (n : Nat) (rules : List Rule) (I : List String) (t : List TraceEntry) (s : Nat),
    countNot rules I < n →
    (firePass rules (chainLoopFuel n rules I t s).inferred [] 1 false).applied = false := by
  intro n
  induction n with
  | zero => intro rules I t s h; omega
  | succ n ih =>
    intro rules I t s h
    obtain ⟨u₁, h1, h2, h3, h4, h5, h6, h7⟩ := firePass_spec rules I t s false
    rw [chainLoopFuel_succ]
    by_cases ha : (firePass rules I t s false).applied = true
    · rw [if_pos ha]
      apply ih
      rw [h3] at ha
      have hne : u₁ ≠ [] := by
        intro hnil
        rw [hnil] at ha
        simp at ha
      obtain ⟨e, he⟩ := List.exists_mem_of_ne_nil u₁ hne
      obtain ⟨hni, rr, hrr, hid, hcl⟩ := h6 e he
      have hsub : ∀ x ∈ I, x ∈ (firePass rules I t s false).inferred := by
        intro x hx
        rw [h2]
        exact List.mem_append_right _ hx
      have hinJ : rr.conclusion ∈ (firePass rules I t s false).inferred := by
        rw [h2, hcl]
        exact List.mem_append_left _
          (List.mem_reverse.mpr (List.mem_map.mpr ⟨e, he, rfl⟩))
      have hniI : rr.conclusion ∉ I := by rw [hcl]; exact hni
      have := countNot_strict I (firePass rules I t s false).inferred hsub rr hniI hinJ rules hrr
      omega
    · rw [if_neg ha]
      have hb : (firePass rules I t s false).applied = false := by
        cases hv : (firePass rules I t s false).applied
        · rfl
        · exact absurd hv ha
      have hindep := firePass_state_indep rules I false t [] s 1
      have hemp : u₁.isEmpty = true := by
        rw [h3] at hb
        simpa using hb
      have hu₁ : u₁ = [] := by
        cases u₁ with
        | nil => rfl
        | cons a l => simp [List.isEmpty] at hemp
      have hinf : (firePass rules I t s false).inferred = I := by
        rw [h2, hu₁]
        simp
      show (firePass rules (firePass rules I t s false).inferred [] 1 false).applied = false
      rw [hinf]
      rw [← hindep.2]
      exact hb

/-- Unfolding equation of `run`. -/
theorem run_eq (kb : List Rule) (facts : List String) :
    run kb facts = chainLoopFuel ((listRules kb).length + 1) (listRules kb) facts [] 1 := rfl

/-- Sorting by the conflict-resolution order permutes the stored rules. -/
theorem listRules_perm (kb : List Rule) : (listRules kb).Perm kb :=
  List.perm_insertionSort _ kb

/-- A pass over rules with non-empty condition lists fires nothing when the
inferred set is empty. -/
theorem firePass_empty_facts :
    ∀ (rs : List Rule), (∀ r ∈ rs, r.conditions ≠ []) →
    ∀ (t : List TraceEntry) (s : Nat) (b : Bool),
    firePass rs [] t s b = ⟨[], t, s, b⟩ := by
  intro rs
  induction rs with
  | nil => intro _ t s b; rfl
  | cons r rs ih =>
    intro h t s b
    have hr : r.conditions ≠ [] := h r (List.mem_cons_self r rs)
    have hg : (r.conditions.all (fun c => List.contains ([] : List String) c)
        && !(List.contains ([] : List String) r.conclusion)) = false := by
      cases hc : r.conditions with
      | nil => exact absurd hc hr
      | cons c cs => simp [hc]
    rw [firePass_cons, if_neg (by intro hcontra; rw [hg] at hcontra; exact Bool.false_ne_true hcontra)]
    exact ih (fun x hx => h x (List.mem_cons_of_mem r hx)) t s b

/-! Claim theorems for the inference engine. -/

/-- Claim C5 (confirmed): every fact present at the start of a
forward-chaining run is still present in the inferred set returned by the
run — the result is a superset of the initial fact set. -/
theorem claim_C5_run_superset (kb : List Rule) (facts : List String)
    (x : String) (hx : x ∈ facts) : x ∈ (run kb facts).inferred := by
  obtain ⟨u, _, h2, _, _⟩ :=
    chainLoop_spec ((listRules kb).length + 1) (listRules kb) facts [] 1
  rw [run_eq, h2]
  exact List.mem_append_right _ hx

/-- Witness for `claim_C5_run_superset` at a concrete store and fact set. -/
theorem claim_C5_witness :
    "a" ∈ (run [mkRule "r1" ["a"] "b" 0 ""] ["a"]).inferred :=
  claim_C5_run_superset [mkRule "r1" ["a"] "b" 0 ""] ["a"] "a" (by decide)

/-- Claim C9 (confirmed): in the trace of a single run over a store with
unique rule ids (the Python store is a dict keyed by id), no rule id occurs
in two trace entries — each rule fires at most once per run. -/
theorem claim_C9_at_most_once (kb : List Rule) (facts : List String)
    (hids : (kb.map (fun r => r.id)).Nodup) :
    ((run kb facts).trace.map (fun e => e.rule_id)).Nodup := by
  have hids' : ((listRules kb).map (fun r => r.id)).Nodup :=
    (((listRules_perm kb).map (fun r => r.id)).nodup_iff).mpr hids
  obtain ⟨u, h1, _, h3, h4⟩ :=
    chainLoop_spec ((listRules kb).length + 1) (listRules kb) facts [] 1
  rw [run_eq, h1]
  simp only [List.nil_append]
  have hinj := List.inj_on_of_nodup_map hids'
  have hpc : List.Pairwise (fun a b : TraceEntry => a.conclusion ≠ b.conclusion) u :=
    List.pairwise_map.mp h4
  have hpi : List.Pairwise (fun a b : TraceEntry => a.rule_id ≠ b.rule_id) u := by
    refine hpc.imp_of_mem ?_
    intro a b ha hb hcne hide
    obtain ⟨-, ra, hra, hraid, hracl⟩ := h3 a ha
    obtain ⟨-, rb, hrb, hrbid, hrbcl⟩ := h3 b hb
    have : ra = rb := hinj hra hrb (by rw [hraid, hrbid, hide])
    exact hcne (by rw [← hracl, ← hrbcl, this])
  exact List.pairwise_map.mpr hpi

/-- Witness for `claim_C9_at_most_once` at a concrete store whose ids are
distinct. -/
theorem claim_C9_witness :
    ((run [mkRule "r1" ["a"] "b" 0 "", mkRule "r2" ["b"] "c" 0 ""] ["a"]).trace.map
      (fun e => e.rule_id)).Nodup :=
  claim_C9_at_most_once [mkRule "r1" ["a"] "b" 0 "", mkRule "r2" ["b"] "c" 0 ""]
    ["a"] (by decide)

/-- Claim C4 (confirmed): a forward-chaining run fires at most as many rules
as the store holds, and the loop terminates at a fixed point — a further
pass over the rule list with the returned inferred set fires nothing, which
is exactly the `applied = False` exit of the `while` loop (so the fuel bound
of the embedding is never the reason the loop stops). -/
theorem claim_C4_termination (kb : List Rule) (facts : List String) :
    (run kb facts).trace.length ≤ kb.length ∧
    (firePass (listRules kb) (run kb facts).inferred [] 1 false).applied = false := by
  constructor
  · obtain ⟨u, h1, _, h3, h4⟩ :=
      chainLoop_spec ((listRules kb).length + 1) (listRules kb) facts [] 1
    rw [run_eq, h1]
    simp only [List.nil_append]
    have hsub : (u.map (fun e => e.conclusion)) ⊆
        ((listRules kb).map (fun r => r.conclusion)) := by
      intro x hx
      obtain ⟨e, he, hce⟩ := List.mem_map.mp hx
      obtain ⟨-, rr, hrr, -, hrcl⟩ := h3 e he
      exact List.mem_map.mpr ⟨rr, hrr, by rw [hrcl, hce]⟩
    have hle := (h4.subperm hsub).length_le
    simp only [List.length_map] at hle
    calc u.length ≤ (listRules kb).length := hle
      _ = kb.length := (listRules_perm kb).length_eq
  · rw [run_eq]
    apply chain_fix
    have := List.length_filter_le (fun r => !(facts.contains r.conclusion)) (listRules kb)
    have hcn : countNot (listRules kb) facts ≤ (listRules kb).length := this
    omega

/-- Claim C8 (confirmed): a run over an empty rule store returns the initial
facts unchanged with an empty trace, and so does a run from an empty fact
set when every stored rule has a non-empty condition list (the section-3
invariant); neither case is an error. -/
theorem claim_C8_empty_runs (facts : List String) (kb : List Rule) :
    run [] facts = ⟨facts, []⟩ ∧
    ((∀ r ∈ kb, r.conditions ≠ []) → run kb [] = ⟨[], []⟩) := by
  constructor
  · rfl
  · intro h
    have h' : ∀ r ∈ listRules kb, r.conditions ≠ [] := by
      intro r hr
      exact h r ((listRules_perm kb).mem_iff.mp hr)
    rw [run_eq, chainLoopFuel_succ, firePass_empty_facts (listRules kb) h' [] 1 false]
    rfl

/-- Witness for `claim_C8_empty_runs`: both conjuncts instantiated at
concrete stores, the hypothesis of the second discharged. -/
theorem claim_C8_witness :
    run [] ["x"] = ⟨["x"], []⟩ ∧
    run [mkRule "r1" ["p"] "q" 0 ""] [] = ⟨[], []⟩ :=
  ⟨(claim_C8_empty_runs ["x"] [mkRule "r1" ["p"] "q" 0 ""]).1,
    (claim_C8_empty_runs ["x"] [mkRule "r1" ["p"] "q" 0 ""]).2 (by decide)⟩

/-- Claim C2 (corrected): when a rule fires, scanning continues with the
remaining rules of the current pass, so within one pass the fired rule ids
form a subsequence of the priority-then-id ordered rule list; the scan
returns to the top of the list only between passes, the loop recursing on a
full pass exactly when that pass fired some rule. -/
theorem claim_C2_pass_order (rules : List Rule) (I : List String)
    (t : List TraceEntry) (s n : Nat) (b : Bool) :
    (∃ u, (firePass rules I t s b).trace = t ++ u ∧
      (u.map (fun e => e.rule_id)).Sublist (rules.map (fun r => r.id))) ∧
    chainLoopFuel (n + 1) rules I t s =
      (if (firePass rules I t s false).applied
       then chainLoopFuel n rules (firePass rules I t s false).inferred
         (firePass rules I t s false).trace (firePass rules I t s false).step
       else ⟨(firePass rules I t s false).inferred, (firePass rules I t s false).trace⟩) := by
  constructor
  · obtain ⟨u, h1, _, _, _, h5, _, _⟩ := firePass_spec rules I t s b
    exact ⟨u, h1, h5⟩
  · exact chainLoopFuel_succ n rules I t s

/-- Claim C2 counterexample: with rules `r1 : [f] -> x (prio 10)`,
`r2 : [a] -> f (prio 5)`, `r3 : [f] -> y (prio 0)` and initial facts `{a}`,
rules `r1` and `r3` both become satisfiable only through the fact `f` derived
by `r2`, yet the lower-priority `r3` fires at step 2, before the
higher-priority `r1` at step 3 — the claimed resume-from-the-top behaviour
would have fired `r1` first. -/
theorem claim_C2_counterexample :
    (run [mkRule "r1" ["f"] "x" 10 "", mkRule "r2" ["a"] "f" 5 "",
        mkRule "r3" ["f"] "y" 0 ""] ["a"]).trace.map
      (fun e => (e.rule_id, e.priority, e.step)) =
      [("r2", (5 : Int), 1), ("r3", 0, 2), ("r1", 10, 3)] ∧
    ("f" ∉ (["a"] : List String)) ∧
    (∃ e1 ∈ (run [mkRule "r1" ["f"] "x" 10 "", mkRule "r2" ["a"] "f" 5 "",
        mkRule "r3" ["f"] "y" 0 ""] ["a"]).trace, e1.rule_id = "r3" ∧
      ∃ e2 ∈ (run [mkRule "r1" ["f"] "x" 10 "", mkRule "r2" ["a"] "f" 5 "",
        mkRule "r3" ["f"] "y" 0 ""] ["a"]).trace, e2.rule_id = "r1" ∧
        e1.priority < e2.priority ∧ e1.step < e2.step) := by
  decide

/-- Claim C3 counterexample: on the example scenario the trace is not
`(R2, R3, R1)` as claimed. -/
theorem claim_C3_counterexample :
    ¬ ((run [mkRule "R1" ["a", "b"] "organik" 0 "", mkRule "R2" ["a"] "c" 5 "",
        mkRule "R3" ["c", "b"] "b3" 0 ""] ["a", "b"]).trace.map
      (fun e => e.rule_id) = ["R2", "R3", "R1"]) := by
  decide

/-- Claim C3 (corrected): on the example scenario the run fires `R2` at
step 1, then `R1` at step 2 (its conditions `a, b` were satisfiable from the
start), then `R3` at step 3; the final inferred set is `{a, b, c, b3,
organik}` and the classification is `b3`. -/
theorem claim_C3_scenario :
    (run [mkRule "R1" ["a", "b"] "organik" 0 "", mkRule "R2" ["a"] "c" 5 "",
        mkRule "R3" ["c", "b"] "b3" 0 ""] ["a", "b"]).trace.map
      (fun e => (e.step, e.rule_id)) = [(1, "R2"), (2, "R1"), (3, "R3")] ∧
    (run [mkRule "R1" ["a", "b"] "organik" 0 "", mkRule "R2" ["a"] "c" 5 "",
        mkRule "R3" ["c", "b"] "b3" 0 ""] ["a", "b"]).inferred.Perm
      ["a", "b", "c", "b3", "organik"] ∧
    classify (run [mkRule "R1" ["a", "b"] "organik" 0 "", mkRule "R2" ["a"] "c" 5 "",
        mkRule "R3" ["c", "b"] "b3" 0 ""] ["a", "b"]).inferred = "b3" := by
  refine ⟨by decide, by decide, by decide⟩

/-! Claim theorems for the rule store. -/

/-- Claim C7 counterexample: `add_rule` performs no validation beyond the
duplicate-id check — a rule whose conditions normalize to the empty sequence
and whose conclusion is empty is accepted and stored. -/
theorem claim_C7_counterexample :
    (addRule [] (mkRule "r1" [] "" 0 "")).2 = true ∧
    (mkRule "r1" [] "" 0 "").conditions = [] ∧
    (mkRule "r1" [] "" 0 "").conclusion = "" ∧
    (addRule [] (mkRule "r1" [] "" 0 "")).1 ≠ [] := by
  decide

/-- Claim C7 (corrected): the store's add operation checks only id
uniqueness — it fails and leaves the store unchanged exactly when the id is
already present, and otherwise appends the rule as given, without validating
conditions or conclusion (that validation lives in the CLI layer outside the
store, so rules with empty conditions or conclusion can enter the store). -/
theorem claim_C7_add_only_checks_id (kb : List Rule) (r : Rule) :
    addRule kb r = if ∃ x ∈ kb, x.id = r.id then (kb, false) else (kb ++ [r], true) := by
  by_cases h : ∃ x ∈ kb, x.id = r.id
  · rw [if_pos h]
    have hb : (kb.any (fun x => x.id == r.id)) = true := by
      obtain ⟨x, hx, hxe⟩ := h
      exact List.any_eq_true.mpr ⟨x, hx, beq_iff_eq.mpr hxe⟩
    rw [addRule, if_pos hb]
  · rw [if_neg h]
    have hb : (kb.any (fun x => x.id == r.id)) = false := by
      rw [Bool.eq_false_iff]
      intro hcontra
      obtain ⟨x, hx, hxe⟩ := List.any_eq_true.mp hcontra
      exact h ⟨x, hx, beq_iff_eq.mp hxe⟩
    rw [addRule, if_neg (by rw [hb]; exact Bool.false_ne_true)]

/-- A false flag short-circuits the conclusion block. -/
theorem conclStage_bypass (rb : Rule × Bool) (fs : UpdateFields) (h : rb.2 = false) :
    conclStage rb fs = rb := by
  simp [conclStage, h]

/-- A false flag short-circuits the priority block. -/
theorem prioStage_bypass (rb : Rule × Bool) (fs : UpdateFields) (h : rb.2 = false) :
    prioStage rb fs = rb := by
  simp [prioStage, h]

/-- A false flag short-circuits the description block. -/
theorem descStage_bypass (rb : Rule × Bool) (fs : UpdateFields) (h : rb.2 = false) :
    descStage rb fs = rb := by
  simp [descStage, h]

/-- The description block never changes the success flag. -/
theorem descStage_flag (rb : Rule × Bool) (fs : UpdateFields) :
    (descStage rb fs).2 = rb.2 := by
  cases hb : rb.2
  · rw [descStage_bypass rb fs hb, hb]
  · cases hd : fs.description with
    | none => simp [descStage, hb, hd]
    | some d => simp [descStage, hb, hd]

/-- A failing conditions block leaves the rule unchanged. -/
theorem condStage_fail (r : Rule) (fs : UpdateFields)
    (h : (condStage r fs).2 = false) : (condStage r fs).1 = r := by
  cases hc : fs.conditions with
  | none => simp [condStage, hc] at h
  | some cs =>
    by_cases hl : cs = []
    · simp [condStage, hc, hl]
    · simp [condStage, hc, hl] at h

/-- A failing conclusion block leaves the incoming rule unchanged. -/
theorem conclStage_fail (rb : Rule × Bool) (fs : UpdateFields)
    (h : (conclStage rb fs).2 = false) : (conclStage rb fs).1 = rb.1 := by
  cases hb : rb.2
  · rw [conclStage_bypass rb fs hb]
  · cases hc : fs.conclusion with
    | none => simp [conclStage, hb, hc] at h
    | some c =>
      by_cases hs : pyStripList c.data = []
      · simp [conclStage, hb, hc, hs]
      · simp [conclStage, hb, hc, hs] at h

/-- A failing priority block leaves the incoming rule unchanged. -/
theorem prioStage_fail (rb : Rule × Bool) (fs : UpdateFields)
    (h : (prioStage rb fs).2 = false) : (prioStage rb fs).1 = rb.1 := by
  cases hb : rb.2
  · rw [prioStage_bypass rb fs hb]
  · cases hp : fs.priority with
    | none => simp [prioStage, hb, hp] at h
    | some p =>
      cases hv : pyIntParse p with
      | none => simp [prioStage, hb, hp, hv]
      | some n => simp [prioStage, hb, hp, hv] at h

/-- The conditions block touches only the conditions field. -/
theorem condStage_keeps (r : Rule) (fs : UpdateFields) :
    (condStage r fs).1.conclusion = r.conclusion ∧
    (condStage r fs).1.priority = r.priority ∧
    (condStage r fs).1.description = r.description ∧
    (condStage r fs).1.id = r.id := by
  cases hc : fs.conditions with
  | none => simp [condStage, hc]
  | some cs =>
    by_cases hl : cs = []
    · simp [condStage, hc, hl]
    · simp [condStage, hc, hl]

/-- The conclusion block touches only the conclusion field. -/
theorem conclStage_keeps (rb : Rule × Bool) (fs : UpdateFields) :
    (conclStage rb fs).1.conditions = rb.1.conditions ∧
    (conclStage rb fs).1.priority = rb.1.priority ∧
    (conclStage rb fs).1.description = rb.1.description ∧
    (conclStage rb fs).1.id = rb.1.id := by
  cases hb : rb.2
  · rw [conclStage_bypass rb fs hb]
    exact ⟨rfl, rfl, rfl, rfl⟩
  · cases hc : fs.conclusion with
    | none => simp [conclStage, hb, hc]
    | some c =>
      by_cases hs : pyStripList c.data = []
      · simp [conclStage, hb, hc, hs]
      · simp [conclStage, hb, hc, hs]

/-- The priority block touches only the priority field. -/
theorem prioStage_keeps (rb : Rule × Bool) (fs : UpdateFields) :
    (prioStage rb fs).1.conditions = rb.1.conditions ∧
    (prioStage rb fs).1.conclusion = rb.1.conclusion ∧
    (prioStage rb fs).1.description = rb.1.description ∧
    (prioStage rb fs).1.id = rb.1.id := by
  cases hb : rb.2
  · rw [prioStage_bypass rb fs hb]
    exact ⟨rfl, rfl, rfl, rfl⟩
  · cases hp : fs.priority with
    | none => simp [prioStage, hb, hp]
    | some p =>
      cases hv : pyIntParse p with
      | none => simp [prioStage, hb, hp, hv]
      | some n => simp [prioStage, hb, hp, hv]

/-- The description block touches only the description field. -/
theorem descStage_keeps (rb : Rule × Bool) (fs : UpdateFields) :
    (descStage rb fs).1.conditions = rb.1.conditions ∧
    (descStage rb fs).1.conclusion = rb.1.conclusion ∧
    (descStage rb fs).1.priority = rb.1.priority ∧
    (descStage rb fs).1.id = rb.1.id := by
  cases hb : rb.2
  · rw [descStage_bypass rb fs hb]
    exact ⟨rfl, rfl, rfl, rfl⟩
  · cases hd : fs.description with
    | none => simp [descStage, hb, hd]
    | some d => simp [descStage, hb, hd]

/-- Mutation of `update_rule` never changes the rule id. -/
theorem updateRuleAux_id (r : Rule) (fs : UpdateFields) :
    (updateRuleAux r fs).1.id = r.id := by
  unfold updateRuleAux
  rw [(descStage_keeps _ fs).2.2.2, (prioStage_keeps _ fs).2.2.2,
    (conclStage_keeps _ fs).2.2.2, (condStage_keeps r fs).2.2.2]

/-- On a failed `update_rule` call the resulting rule is the one produced by
the conditions and conclusion blocks alone: the priority and description
blocks never committed. -/
theorem updateRuleAux_fail_shape (r : Rule) (fs : UpdateFields)
    (h : (updateRuleAux r fs).2 = false) :
    (updateRuleAux r fs).1 = (conclStage (condStage r fs) fs).1 := by
  unfold updateRuleAux at h ⊢
  have h3 : (prioStage (conclStage (condStage r fs) fs) fs).2 = false := by
    rw [← descStage_flag (prioStage (conclStage (condStage r fs) fs) fs) fs]
    exact h
  rw [descStage_bypass _ fs h3]
  exact prioStage_fail _ fs h3

/-- Any invalid supplied field makes `update_rule` return failure (the blocks
run in order and each invalid block returns `False`). -/
theorem updateRuleAux_invalid (r : Rule) (fs : UpdateFields)
    (h : fs.conditions = some [] ∨
      (∃ c, fs.conclusion = some c ∧ pyStripList c.data = []) ∨
      (∃ p, fs.priority = some p ∧ pyIntParse p = none)) :
    (updateRuleAux r fs).2 = false := by
  rcases h with hcond | ⟨c, hc, hs⟩ | ⟨p, hp, hv⟩
  · unfold updateRuleAux
    have h1 : condStage r fs = (r, false) := by simp [condStage, hcond]
    rw [h1, conclStage_bypass _ fs rfl, prioStage_bypass _ fs rfl,
      descStage_bypass _ fs rfl]
  · unfold updateRuleAux
    cases hb1 : (condStage r fs).2
    · rw [conclStage_bypass _ fs hb1, prioStage_bypass _ fs hb1,
        descStage_bypass _ fs hb1]
      exact hb1
    · have h2 : conclStage (condStage r fs) fs = ((condStage r fs).1, false) := by
        simp [conclStage, hb1, hc, hs]
      rw [h2, prioStage_bypass _ fs rfl, descStage_bypass _ fs rfl]
  · unfold updateRuleAux
    cases hb2 : (conclStage (condStage r fs) fs).2
    · rw [prioStage_bypass _ fs hb2, descStage_bypass _ fs hb2]
      exact hb2
    · have h3 : prioStage (conclStage (condStage r fs) fs) fs
          = ((conclStage (condStage r fs) fs).1, false) := by
        simp [prioStage, hb2, hp, hv]
      rw [h3, descStage_bypass _ fs rfl]

/-- Writing back the mutated rule at the looked-up id makes the lookup return
the mutated rule (the embedding of in-place mutation of the shared object). -/
theorem getRule_update (rid : String) (v : Rule) :
    ∀ (kb : List Rule) (r : Rule), getRule kb rid = some r → v.id = r.id →
    getRule (kb.map (fun x => if x.id == rid then v else x)) rid = some v := by
  intro kb
  induction kb with
  | nil => intro r h _; simp [getRule] at h
  | cons x xs ih =>
    intro r h hvid
    by_cases hx : (x.id == rid) = true
    · have hhead : getRule (x :: xs) rid = some x := by
        unfold getRule
        exact @List.find?_cons_of_pos _ (fun y => y.id == rid) x xs hx
      have hrx : x = r := Option.some.inj (hhead.symm.trans h)
      have hvrid : (v.id == rid) = true := by
        rw [hvid, ← hrx]
        exact hx
      show getRule ((x :: xs).map (fun y => if y.id == rid then v else y)) rid = some v
      rw [List.map_cons, if_pos hx]
      unfold getRule
      exact @List.find?_cons_of_pos _ (fun y => y.id == rid) v _ hvrid
    · have h' := h
      unfold getRule at h'
      rw [@List.find?_cons_of_neg _ (fun y => y.id == rid) x xs hx] at h'
      have hres := ih r h' hvid
      show getRule ((x :: xs).map (fun y => if y.id == rid then v else y)) rid = some v
      rw [List.map_cons, if_neg hx]
      unfold getRule at hres ⊢
      rw [@List.find?_cons_of_neg _ (fun y => y.id == rid) x _ hx]
      exact hres

/-- Unfolding equation of `updateRule` when the id is present. -/
theorem updateRule_found (kb : List Rule) (rid : String) (fs : UpdateFields)
    (r : Rule) (hget : getRule kb rid = some r) :
    updateRule kb rid fs =
      (kb.map (fun x => if x.id == rid then (updateRuleAux r fs).1 else x),
        (updateRuleAux r fs).2) := by
  unfold updateRule
  rw [hget]

/-- Claim C1 (corrected): any invalid supplied field makes `update_rule`
return failure, and a failed call never touches the priority or description
fields; but the call is not atomic — the blocks commit in order
(conditions, conclusion, priority, description), so a failure at a later
block leaves the fields already committed by earlier blocks mutated.  The
stored rule after any failed call is exactly the output of the conditions
and conclusion blocks; when the conditions field itself is the invalid one
(the first check), the rule is fully unchanged. -/
theorem claim_C1_update_not_atomic (kb : List Rule) (rid : String)
    (fs : UpdateFields) (r : Rule) (hget : getRule kb rid = some r) :
    ((fs.conditions = some [] ∨
        (∃ c, fs.conclusion = some c ∧ pyStripList c.data = []) ∨
        (∃ p, fs.priority = some p ∧ pyIntParse p = none)) →
      (updateRule kb rid fs).2 = false) ∧
    ((updateRule kb rid fs).2 = false →
      getRule (updateRule kb rid fs).1 rid = some ((conclStage (condStage r fs) fs).1) ∧
      ((conclStage (condStage r fs) fs).1).priority = r.priority ∧
      ((conclStage (condStage r fs) fs).1).description = r.description) ∧
    (fs.conditions = some [] → getRule (updateRule kb rid fs).1 rid = some r) := by
  rw [updateRule_found kb rid fs r hget]
  refine ⟨?_, ?_, ?_⟩
  · intro hinv
    exact updateRuleAux_invalid r fs hinv
  · intro hfail
    have hfail' : (updateRuleAux r fs).2 = false := hfail
    have hshape := updateRuleAux_fail_shape r fs hfail'
    refine ⟨?_, ?_, ?_⟩
    · show getRule (kb.map (fun x => if x.id == rid then (updateRuleAux r fs).1 else x)) rid
        = some ((conclStage (condStage r fs) fs).1)
      rw [← hshape]
      exact getRule_update rid ((updateRuleAux r fs).1) kb r hget (updateRuleAux_id r fs)
    · rw [(conclStage_keeps (condStage r fs) fs).2.1, (condStage_keeps r fs).2.1]
    · rw [(conclStage_keeps (condStage r fs) fs).2.2.1, (condStage_keeps r fs).2.2.1]
  · intro hcond
    have h1 : condStage r fs = (r, false) := by simp [condStage, hcond]
    have haux : updateRuleAux r fs = (r, false) := by
      unfold updateRuleAux
      rw [h1, conclStage_bypass _ fs rfl, prioStage_bypass _ fs rfl,
        descStage_bypass _ fs rfl]
    show getRule (kb.map (fun x => if x.id == rid then (updateRuleAux r fs).1 else x)) rid
      = some r
    rw [haux]
    exact getRule_update rid r kb r hget rfl

/-- Witness for `claim_C1_update_not_atomic` at a call whose three supplied
fields are all invalid: the call fails, the store keeps the rule unchanged
(failure already at the conditions block), and priority and description are
preserved. -/
theorem claim_C1_witness :
    (updateRule [mkRule "r1" ["x"] "y" 0 ""] "r1"
      ⟨some [], some "", some "zz", none⟩).2 = false ∧
    getRule (updateRule [mkRule "r1" ["x"] "y" 0 ""] "r1"
      ⟨some [], some "", some "zz", none⟩).1 "r1" = some (mkRule "r1" ["x"] "y" 0 "") := by
  have h := claim_C1_update_not_atomic [mkRule "r1" ["x"] "y" 0 ""] "r1"
    ⟨some [], some "", some "zz", none⟩ (mkRule "r1" ["x"] "y" 0 "") (by decide)
  exact ⟨h.1 (Or.inl rfl), h.2.2 rfl⟩

/-- Claim C1 counterexample: updating the stored rule
`r1 : [x] -> y (prio 0)` with a valid conditions list `[a]` and a blank
conclusion returns failure, yet the stored rule has been mutated — its
conditions are already replaced, so the rule after the failed call differs
from the rule before it. -/
theorem claim_C1_counterexample :
    (updateRule [mkRule "r1" ["x"] "y" 0 ""] "r1"
      ⟨some ["a"], some " ", none, none⟩).2 = false ∧
    getRule (updateRule [mkRule "r1" ["x"] "y" 0 ""] "r1"
      ⟨some ["a"], some " ", none, none⟩).1 "r1" ≠ some (mkRule "r1" ["x"] "y" 0 "") ∧
    (updateRule [mkRule "r1" ["x"] "y" 0 ""] "r1"
      ⟨some ["a"], some " ", none, none⟩).1 ≠ [mkRule "r1" ["x"] "y" 0 ""] := by
  decide

/-! Character-level lemmas about the normalizer, for claims C6 and C10. -/

/-- Round trip from a valid code point through `Char.ofNat`. -/
theorem char_toNat_ofNat (n : Nat) (h : n.isValidChar) : (Char.ofNat n).toNat = n := by
  unfold Char.ofNat
  split
  · rfl
  · simp_all [Char.ofNatAux, Char.toNat]

/-- Characters with equal code points are equal. -/
theorem char_eq_of_toNat {a b : Char} (h : a.toNat = b.toNat) : a = b := by
  rw [← Char.ofNat_toNat a, ← Char.ofNat_toNat b, h]

/-- Code point of the lower-cased character. -/
theorem pyLowerChar_toNat (c : Char) :
    (pyLowerChar c).toNat =
      if 65 ≤ c.toNat ∧ c.toNat ≤ 90 then c.toNat + 32 else c.toNat := by
  unfold pyLowerChar
  by_cases h : 65 ≤ c.toNat ∧ c.toNat ≤ 90
  · rw [if_pos h, if_pos h]
    exact char_toNat_ofNat _ (Or.inl (by omega))
  · rw [if_neg h, if_neg h]

/-- Membership in the Python whitespace set, expressed on code points. -/
theorem pySpace_iff (c : Char) :
    pySpace c = true ↔ (c.toNat = 32 ∨ c.toNat = 9 ∨ c.toNat = 10 ∨
      c.toNat = 13 ∨ c.toNat = 11 ∨ c.toNat = 12) := by
  unfold pySpace
  simp only [Bool.or_eq_true, beq_iff_eq]
  constructor
  · rintro (((((h | h) | h) | h) | h) | h) <;> subst h <;> decide
  · have hsp : (' ' : Char).toNat = 32 := by decide
    have ht : ('\t' : Char).toNat = 9 := by decide
    have hn : ('\n' : Char).toNat = 10 := by decide
    have hr : ('\r' : Char).toNat = 13 := by decide
    have hv : ('\x0b' : Char).toNat = 11 := by decide
    have hf : ('\x0c' : Char).toNat = 12 := by decide
    rintro (h | h | h | h | h | h)
    · exact Or.inl (Or.inl (Or.inl (Or.inl (Or.inl (char_eq_of_toNat (h.trans hsp.symm))))))
    · exact Or.inl (Or.inl (Or.inl (Or.inl (Or.inr (char_eq_of_toNat (h.trans ht.symm))))))
    · exact Or.inl (Or.inl (Or.inl (Or.inr (char_eq_of_toNat (h.trans hn.symm)))))
    · exact Or.inl (Or.inl (Or.inr (char_eq_of_toNat (h.trans hr.symm))))
    · exact Or.inl (Or.inr (char_eq_of_toNat (h.trans hv.symm)))
    · exact Or.inr (char_eq_of_toNat (h.trans hf.symm))

/-- Lower-casing does not change whether a character is whitespace. -/
theorem pySpace_pyLowerChar (c : Char) : pySpace (pyLowerChar c) = pySpace c := by
  by_cases h : 65 ≤ c.toNat ∧ c.toNat ≤ 90
  · have htn : (pyLowerChar c).toNat = c.toNat + 32 := by rw [pyLowerChar_toNat, if_pos h]
    have h1 : pySpace (pyLowerChar c) = false := by
      cases hv : pySpace (pyLowerChar c)
      · rfl
      · have := (pySpace_iff _).mp hv
        rw [htn] at this
        omega
    have h2 : pySpace c = false := by
      cases hv : pySpace c
      · rfl
      · have := (pySpace_iff _).mp hv
        omega
    rw [h1, h2]
  · have : pyLowerChar c = c := by unfold pyLowerChar; rw [if_neg h]
    rw [this]

/-- Behaviour of the space-to-underscore map on code points. -/
theorem underscoreChar_eq (c : Char) :
    underscoreChar c = if c.toNat = 32 then '_' else c := by
  unfold underscoreChar
  by_cases h : c.toNat = 32
  · rw [if_pos h, if_pos (beq_iff_eq.mpr (char_eq_of_toNat (by rw [h]; decide)))]
  · rw [if_neg h, if_neg ?_]
    intro hcontra
    exact h (by rw [beq_iff_eq.mp hcontra]; decide)

/-- Lower-casing is idempotent. -/
theorem pyLowerChar_idem (c : Char) : pyLowerChar (pyLowerChar c) = pyLowerChar c := by
  by_cases h : 65 ≤ c.toNat ∧ c.toNat ≤ 90
  · have htn : (pyLowerChar c).toNat = c.toNat + 32 := by rw [pyLowerChar_toNat, if_pos h]
    have hcond : ¬ (65 ≤ (pyLowerChar c).toNat ∧ (pyLowerChar c).toNat ≤ 90) := by
      rw [htn]; omega
    show (if 65 ≤ (pyLowerChar c).toNat ∧ (pyLowerChar c).toNat ≤ 90
      then Char.ofNat ((pyLowerChar c).toNat + 32) else pyLowerChar c) = pyLowerChar c
    exact if_neg hcond
  · have hc : pyLowerChar c = c := by unfold pyLowerChar; rw [if_neg h]
    rw [hc, hc]

/-- Composite per-character action of lower-casing then space replacement. -/
theorem norm_char_eq (c : Char) :
    underscoreChar (pyLowerChar c) =
      if c.toNat = 32 then '_' else pyLowerChar c := by
  by_cases h : c.toNat = 32
  · have hlc : pyLowerChar c = c := by
      apply char_eq_of_toNat
      rw [pyLowerChar_toNat, if_neg (by omega)]
    rw [if_pos h, hlc, underscoreChar_eq, if_pos h]
  · have hne : (pyLowerChar c).toNat ≠ 32 := by
      rw [pyLowerChar_toNat]
      by_cases hu : 65 ≤ c.toNat ∧ c.toNat ≤ 90
      · rw [if_pos hu]; omega
      · rw [if_neg hu]; exact h
    rw [if_neg h, underscoreChar_eq, if_neg hne]

/-- The per-character normalization maps non-whitespace to non-whitespace. -/
theorem norm_char_notSpace (c : Char) (h : pySpace c = false) :
    pySpace (underscoreChar (pyLowerChar c)) = false := by
  have hne : c.toNat ≠ 32 := by
    intro hc
    rw [(pySpace_iff c).mpr (Or.inl hc)] at h
    cases h
  rw [norm_char_eq, if_neg hne, pySpace_pyLowerChar]
  exact h

/-- The per-character normalization is idempotent. -/
theorem norm_char_idem (c : Char) :
    underscoreChar (pyLowerChar (underscoreChar (pyLowerChar c))) =
      underscoreChar (pyLowerChar c) := by
  by_cases h : c.toNat = 32
  · rw [norm_char_eq c, if_pos h]
    decide
  · rw [norm_char_eq c, if_neg h, pyLowerChar_idem]
    have hne : (pyLowerChar c).toNat ≠ 32 := by
      rw [pyLowerChar_toNat]
      by_cases hu : 65 ≤ c.toNat ∧ c.toNat ≤ 90
      · rw [if_pos hu]; omega
      · rw [if_neg hu]; exact h
    rw [underscoreChar_eq (pyLowerChar c), if_neg hne]

/-- The head surviving `dropWhile` does not satisfy the predicate. -/
theorem dropWhile_head_not {α : Type} (p : α → Bool) :
    ∀ (l : List α) (c : α), (l.dropWhile p).head? = some c → p c = false := by
  intro l
  induction l with
  | nil => intro c h; simp at h
  | cons a l' ih =>
    intro c h
    by_cases hp : p a = true
    · rw [List.dropWhile_cons, if_pos hp] at h
      exact ih c h
    · rw [List.dropWhile_cons, if_neg hp] at h
      have hc : a = c := by
        simp only [List.head?_cons, Option.some.injEq] at h
        exact h
      subst hc
      simpa using hp

/-- A list whose head does not satisfy the predicate survives `dropWhile`. -/
theorem dropWhile_eq_self {α : Type} (p : α → Bool) (l : List α)
    (h : ∀ c, l.head? = some c → p c = false) : l.dropWhile p = l := by
  cases l with
  | nil => rfl
  | cons a l' =>
    rw [List.dropWhile_cons, if_neg ?_]
    rw [h a (by simp)]
    exact Bool.false_ne_true

/-- When `dropWhile` leaves something, it keeps the last element. -/
theorem dropWhile_getLast? {α : Type} (p : α → Bool) :
    ∀ (w : List α), w.dropWhile p ≠ [] → (w.dropWhile p).getLast? = w.getLast? := by
  intro w
  induction w with
  | nil => intro h; simp at h
  | cons a w' ih =>
    intro h
    by_cases hp : p a = true
    · rw [List.dropWhile_cons, if_pos hp] at h ⊢
      cases hw' : w' with
      | nil =>
        subst hw'
        simp at h
      | cons b w'' =>
        rw [← hw']
        rw [ih h]
        rw [hw', List.getLast?_cons_cons]
    · rw [List.dropWhile_cons, if_neg hp]

/-- The first character of a stripped list is not whitespace. -/
theorem strip_head (l : List Char) (c : Char)
    (h : (pyStripList l).head? = some c) : pySpace c = false := by
  unfold pyStripList at h
  rw [List.head?_reverse] at h
  have hne : (((l.dropWhile pySpace).reverse).dropWhile pySpace) ≠ [] := by
    intro hnil
    rw [hnil] at h
    simp at h
  rw [dropWhile_getLast? pySpace _ hne, List.getLast?_reverse] at h
  exact dropWhile_head_not pySpace _ c h

/-- The last character of a stripped list is not whitespace. -/
theorem strip_last (l : List Char) (c : Char)
    (h : (pyStripList l).getLast? = some c) : pySpace c = false := by
  unfold pyStripList at h
  rw [List.getLast?_reverse] at h
  exact dropWhile_head_not pySpace _ c h

/-- A list without leading or trailing whitespace strips to itself. -/
theorem strip_noop (l : List Char)
    (hh : ∀ c, l.head? = some c → pySpace c = false)
    (hl : ∀ c, l.getLast? = some c → pySpace c = false) :
    pyStripList l = l := by
  unfold pyStripList
  rw [dropWhile_eq_self pySpace l hh]
  rw [dropWhile_eq_self pySpace l.reverse ?_]
  · exact List.reverse_reverse l
  · intro c hc
    rw [List.head?_reverse] at hc
    exact hl c hc

/-- Unfolding equation of `normalize` on an explicit character list. -/
theorem normalize_mk (l : List Char) :
    normalize (String.mk l) =
      String.mk (((pyStripList l).map pyLowerChar).map underscoreChar) := rfl

/-- Normalization is idempotent: its output has no leading or trailing
whitespace, no upper-case ASCII letter, and no space character, so a second
application changes nothing. -/
theorem normalize_idem (s : String) : normalize (normalize s) = normalize s := by
  have key : pyStripList (((pyStripList s.data).map pyLowerChar).map underscoreChar)
      = ((pyStripList s.data).map pyLowerChar).map underscoreChar := by
    apply strip_noop
    · intro c hc
      rw [List.head?_map, List.head?_map] at hc
      cases hX : (pyStripList s.data).head? with
      | none => rw [hX] at hc; simp at hc
      | some c0 =>
        rw [hX] at hc
        simp only [Option.map_some'] at hc
        have hcc : c = underscoreChar (pyLowerChar c0) := (Option.some.inj hc).symm
        subst hcc
        exact norm_char_notSpace c0 (strip_head _ c0 hX)
    · intro c hc
      rw [List.getLast?_map, List.getLast?_map] at hc
      cases hX : (pyStripList s.data).getLast? with
      | none => rw [hX] at hc; simp at hc
      | some c0 =>
        rw [hX] at hc
        simp only [Option.map_some'] at hc
        have hcc : c = underscoreChar (pyLowerChar c0) := (Option.some.inj hc).symm
        subst hcc
        exact norm_char_notSpace c0 (strip_last _ c0 hX)
  show normalize (String.mk (((pyStripList s.data).map pyLowerChar).map underscoreChar))
    = normalize s
  rw [normalize_mk, key]
  unfold normalize
  congr 1
  simp only [List.map_map, Function.comp]
  exact List.map_congr_left (fun a _ => norm_char_idem a)

/-- Claim C6 (corrected): `normalize` trims both ends, lower-cases, and
replaces each remaining space character by one underscore — one underscore
per space, and only the space character, not every whitespace character.  It
is total and maps the empty string to the empty token. -/
theorem claim_C6_per_space (s : String) :
    normalize s = normalizeAmendedC6 s ∧ normalize "" = "" := by
  constructor
  · unfold normalize normalizeAmendedC6
    congr 1
    simp only [List.map_map, Function.comp]
    apply List.map_congr_left
    intro c _
    show underscoreChar (pyLowerChar c) = if c = ' ' then '_' else pyLowerChar c
    rw [norm_char_eq]
    by_cases h : c.toNat = 32
    · rw [if_pos h, if_pos (char_eq_of_toNat (show c.toNat = (' ' : Char).toNat by rw [h]; decide))]
    · rw [if_neg h, if_neg ?_]
      intro hc
      exact h (by rw [hc]; decide)
  · rfl

/-- Claim C6 counterexample: a run of two spaces becomes two underscores,
not one, and an internal tab is kept rather than replaced — `normalize`
replaces each space character, it does not collapse whitespace runs. -/
theorem claim_C6_counterexample :
    normalize "a  b" ≠ normalizeClaimC6 "a  b" ∧
    normalize "a  b" = "a__b" ∧ normalizeClaimC6 "a  b" = "a_b" ∧
    normalize "a\tb" = "a\tb" ∧ normalizeClaimC6 "a\tb" = "a_b" := by
  decide

/-- Claim C10 (confirmed): the canonical-token invariant of the fact store —
every stored fact is a fixed point of `normalize` — is preserved by the add,
remove and load operations. -/
theorem claim_C10_canonical (fb : List String) (fact : String)
    (data : List String) (h : factInv fb) :
    factInv (addFact fb fact).1 ∧ factInv (removeFact fb fact).1 ∧
    factInv (loadFacts data) := by
  refine ⟨?_, ?_, ?_⟩
  · simp only [addFact]
    by_cases h1 : normalize fact = ""
    · rw [if_pos h1]
      exact h
    · rw [if_neg h1]
      by_cases h2 : normalize fact ∈ fb
      · rw [if_pos h2]
        exact h
      · rw [if_neg h2]
        intro x hx
        rcases List.mem_cons.mp hx with hx | hx
        · subst hx
          exact normalize_idem fact
        · exact h x hx
  · simp only [removeFact]
    by_cases h2 : normalize fact ∈ fb
    · rw [if_pos h2]
      intro x hx
      exact h x (List.mem_of_mem_erase hx)
    · rw [if_neg h2]
      exact h
  · intro x hx
    unfold loadFacts at hx
    obtain ⟨y, -, hy⟩ := List.mem_map.mp (List.mem_dedup.mp hx)
    rw [← hy]
    exact normalize_idem y

/-- Witness for `claim_C10_canonical` at concrete stores and inputs. -/
theorem claim_C10_witness :
    factInv (addFact ["ab"] " New  Fact ").1 ∧
    factInv (removeFact ["ab"] " New  Fact ").1 ∧
    factInv (loadFacts [" Mixed Case "]) :=
  claim_C10_canonical ["ab"] " New  Fact " [" Mixed Case "]
    (by
      intro f hf
      have hf' : f = "ab" := by simpa using hf
      subst hf'
      decide)

end MainPy
